import Mathlib

/-!
Shallow embedding of the geometry/shading kernel of the `ray-tracer-rust`
repository (src/src/*.rs).  `f64` values are modelled by `ℚ`; the few places
where IEEE special values (±∞, NaN) are semantically load-bearing (the AABB
slab test in `bounds.rs`) use an explicit extended-number type.  Fallible code
paths (Rust panics: `unwrap` on a failed `partial_cmp`, indexing `children[0]`
of an empty group) are modelled with `Option`, `none` meaning a panic.
-/

namespace RT

/-- Tolerance equality used by `tuples::close` and `matrices::close`
(`(a - b).abs() <= 1e-5`; the extra `a == b` short-circuit in `tuples::close`
is subsumed by the inequality over `ℚ`). -/
def closeQ (a b : ℚ) : Bool := decide (|a - b| ≤ 1 / 100000)

/-- Executable stand-in for `f64::sqrt`: exact on rationals whose numerator and
denominator are perfect squares (all inputs appearing in concrete claims), an
approximation elsewhere, mirroring that `f64::sqrt` itself rounds.  Negative
inputs (NaN in `f64`) are mapped to `0`; no claim exercises them. -/
def qsqrt (q : ℚ) : ℚ :=
  if q ≤ 0 then 0 else (Nat.sqrt q.num.natAbs : ℚ) / (Nat.sqrt q.den : ℚ)

/-! ## Tuples and colors (`tuples.rs`) -/

/-- `tuples::Tuple`: homogeneous 4-component value, `w = 1` point, `w = 0`
vector. -/
structure Tuple where
  x : ℚ
  y : ℚ
  z : ℚ
  w : ℚ
  deriving DecidableEq, Repr

def tupleMk (x y z w : ℚ) : Tuple := ⟨x, y, z, w⟩
def pointT (x y z : ℚ) : Tuple := ⟨x, y, z, 1⟩
def vectorT (x y z : ℚ) : Tuple := ⟨x, y, z, 0⟩

def addT (a b : Tuple) : Tuple := ⟨a.x + b.x, a.y + b.y, a.z + b.z, a.w + b.w⟩
def subT (a b : Tuple) : Tuple := ⟨a.x - b.x, a.y - b.y, a.z - b.z, a.w - b.w⟩
def negT (a : Tuple) : Tuple := ⟨-a.x, -a.y, -a.z, -a.w⟩
def scaleT (a : Tuple) (s : ℚ) : Tuple := ⟨a.x * s, a.y * s, a.z * s, a.w * s⟩
def divT (a : Tuple) (s : ℚ) : Tuple := ⟨a.x / s, a.y / s, a.z / s, a.w / s⟩
def dotT (a b : Tuple) : ℚ := a.x * b.x + a.y * b.y + a.z * b.z + a.w * b.w

/-- `Tuple::magnitude`: ignores `w`, as the source does. -/
def magnitude (a : Tuple) : ℚ := qsqrt (a.x ^ 2 + a.y ^ 2 + a.z ^ 2)

def normalized (a : Tuple) : Tuple := divT a (magnitude a)

/-- `Tuple::reflect`: `self - normal * 2 * self.dot(normal)`. -/
def reflectT (v n : Tuple) : Tuple := subT v (scaleT n (2 * dotT v n))

/-- `tuples::Color`. -/
structure Color where
  red : ℚ
  green : ℚ
  blue : ℚ
  deriving DecidableEq, Repr

def colorMk (r g b : ℚ) : Color := ⟨r, g, b⟩
def blackC : Color := ⟨0, 0, 0⟩

def colorAdd (a b : Color) : Color := ⟨a.red + b.red, a.green + b.green, a.blue + b.blue⟩
def colorSub (a b : Color) : Color := ⟨a.red - b.red, a.green - b.green, a.blue - b.blue⟩
def colorScale (a : Color) (s : ℚ) : Color := ⟨a.red * s, a.green * s, a.blue * s⟩
/-- Hadamard product. -/
def colorMul (a b : Color) : Color := ⟨a.red * b.red, a.green * b.green, a.blue * b.blue⟩

/-- `Color`'s tolerance-based `PartialEq`. -/
def colorEqB (a b : Color) : Bool :=
  closeQ a.red b.red && closeQ a.green b.green && closeQ a.blue b.blue

/-! ## Matrices (`matrices.rs`)

The source stores a `Vec<Vec<f64>>`; every transform in the program is 4×4 and
the cofactor recursion of `determinant` descends through 3×3 and 2×2 minors, so
the embedding indexes by `Fin n` with the size as an explicit parameter. -/

/-- `Matrix::submatrix(row, col)`: drop one row and one column; surviving
indices shift exactly as `Vec::remove` shifts them. -/
def submatrixRT {n : ℕ} (m : Matrix (Fin (n + 1)) (Fin (n + 1)) ℚ)
    (row col : Fin (n + 1)) : Matrix (Fin n) (Fin n) ℚ :=
  Matrix.of fun i j => m (row.succAbove i) (col.succAbove j)

/-- `Matrix::determinant`: base case 2×2 `ad − bc`, otherwise first-row
cofactor expansion (the `cofactor` call is inlined: sign `(row+col) % 2`
times the minor).  A 0×0 matrix falls into the loop case with zero iterations,
hence `0`, exactly as the source. -/
def determinantRT : (n : ℕ) → Matrix (Fin n) (Fin n) ℚ → ℚ
  | 0, _ => 0
  | 1, m => ∑ c : Fin 1,
      m 0 c * ((if ((0 : ℕ) + (c : ℕ)) % 2 = 0 then (1 : ℚ) else -1) *
        determinantRT 0 (submatrixRT m 0 c))
  | 2, m => m 0 0 * m 1 1 - m 0 1 * m 1 0
  | (n + 3), m => ∑ c : Fin (n + 3),
      m 0 c * ((if ((0 : ℕ) + (c : ℕ)) % 2 = 0 then (1 : ℚ) else -1) *
        determinantRT (n + 2) (submatrixRT m 0 c))

/-- `Matrix::cofactor`. -/
def cofactorRT {n : ℕ} (m : Matrix (Fin (n + 1)) (Fin (n + 1)) ℚ)
    (row col : Fin (n + 1)) : ℚ :=
  (if ((row : ℕ) + (col : ℕ)) % 2 = 0 then (1 : ℚ) else -1) *
    determinantRT n (submatrixRT m row col)

abbrev Matrix4 := Matrix (Fin 4) (Fin 4) ℚ

/-- `Matrix::transpose`. -/
def transposeRT {n : ℕ} (m : Matrix (Fin n) (Fin n) ℚ) : Matrix (Fin n) (Fin n) ℚ :=
  Matrix.of fun i j => m j i

/-- `Matrix::inverse`: transpose of the cofactor matrix, divided entrywise by
the determinant. -/
def inverseRT (m : Matrix4) : Matrix4 :=
  Matrix.of fun i j => cofactorRT m j i / determinantRT 4 m

/-- `Mul for Matrix`: entry `(i,j)` is the dot product of row `i` of the left
factor with row `j` of the right factor's transpose. -/
def matMul {n : ℕ} (a b : Matrix (Fin n) (Fin n) ℚ) : Matrix (Fin n) (Fin n) ℚ :=
  Matrix.of fun i j => ∑ k, a i k * transposeRT b j k

/-- `Mul<&Tuple> for &Matrix`. -/
def mulTuple (m : Matrix4) (t : Tuple) : Tuple :=
  ⟨m 0 0 * t.x + m 0 1 * t.y + m 0 2 * t.z + m 0 3 * t.w,
   m 1 0 * t.x + m 1 1 * t.y + m 1 2 * t.z + m 1 3 * t.w,
   m 2 0 * t.x + m 2 1 * t.y + m 2 2 * t.z + m 2 3 * t.w,
   m 3 0 * t.x + m 3 1 * t.y + m 3 2 * t.z + m 3 3 * t.w⟩

/-- `matrices::identity_matrix`. -/
def identityMatrix : Matrix4 :=
  Matrix.of fun i j => if i = j then 1 else 0

/-- `PartialEq for Matrix`: same dimensions (enforced here by the type) and
entrywise `close` (`|Δ| ≤ 1e-5`). -/
def matrixEqB {n : ℕ} (a b : Matrix (Fin n) (Fin n) ℚ) : Bool :=
  decide (∀ i j, closeQ (a i j) (b i j) = true)

/-! ## Rays (`rays.rs`) -/

structure Ray where
  origin : Tuple
  direction : Tuple
  deriving DecidableEq, Repr

def rayMk (origin direction : Tuple) : Ray := ⟨origin, direction⟩

/-- `Ray::position`. -/
def Ray.position (r : Ray) (time : ℚ) : Tuple := addT r.origin (scaleT r.direction time)

/-- `Ray::transform`. -/
def Ray.transformM (r : Ray) (m : Matrix4) : Ray :=
  ⟨mulTuple m r.origin, mulTuple m r.direction⟩

/-! ## Extended floats for the slab test (`bounds.rs`)

`Bounds::intersects` divides by raw direction components; in `f64` this can
produce ±∞ (nonzero/0) and NaN (0/0), and the `max_by`/`min_by` comparators
`unwrap()` the result of `partial_cmp`, which is `None` as soon as a NaN is
compared — a panic.  The embedding makes these special values explicit. -/

inductive XF where
  | fin (q : ℚ)
  | pinf
  | ninf
  | nan
  deriving DecidableEq, Repr

/-- `f64` division of two finite values (the only division in `check_axis`):
nonzero/0 is a signed infinity, 0/0 is NaN. -/
def xfDiv (n d : ℚ) : XF :=
  if d = 0 then (if 0 < n then XF.pinf else if n < 0 then XF.ninf else XF.nan)
  else XF.fin (n / d)

/-- `f64::partial_cmp`: `none` iff either side is NaN. -/
def xfCmp : XF → XF → Option Ordering
  | XF.nan, _ => none
  | _, XF.nan => none
  | XF.fin a, XF.fin b => some (if a < b then .lt else if b < a then .gt else .eq)
  | XF.fin _, XF.pinf => some .lt
  | XF.fin _, XF.ninf => some .gt
  | XF.pinf, XF.fin _ => some .gt
  | XF.pinf, XF.pinf => some .eq
  | XF.pinf, XF.ninf => some .gt
  | XF.ninf, XF.fin _ => some .lt
  | XF.ninf, XF.pinf => some .lt
  | XF.ninf, XF.ninf => some .eq

/-- `a > b` on `f64` (true iff `partial_cmp` is `Greater`; false on NaN). -/
def xfGT (a b : XF) : Bool := decide (xfCmp a b = some Ordering.gt)
/-- `a <= b` on `f64` (false on NaN). -/
def xfLE (a b : XF) : Bool :=
  decide (xfCmp a b = some Ordering.lt ∨ xfCmp a b = some Ordering.eq)
/-- `a >= b` on `f64` (false on NaN). -/
def xfGE (a b : XF) : Bool :=
  decide (xfCmp a b = some Ordering.gt ∨ xfCmp a b = some Ordering.eq)

/-- `bounds::check_axis`. -/
def checkAxis (origin direction minimum maximum : ℚ) : XF × XF :=
  let tmin := xfDiv (minimum - origin) direction
  let tmax := xfDiv (maximum - origin) direction
  if xfGT tmin tmax then (tmax, tmin) else (tmin, tmax)

/-- `Iterator::max_by` with the `partial_cmp(..).unwrap()` comparator of
`Bounds::intersects`; `none` models the panic (comparison involving NaN, or
the final `unwrap` on an empty iterator).  `std::cmp::max_by` keeps the second
argument on `Equal`. -/
def maxByXF : List XF → Option XF
  | [] => none
  | h :: t =>
    t.foldlM (fun acc y => (xfCmp acc y).map fun o => if o = Ordering.gt then acc else y) h

/-- `Iterator::min_by` (keeps the first argument on `Equal`). -/
def minByXF : List XF → Option XF
  | [] => none
  | h :: t =>
    t.foldlM (fun acc y => (xfCmp acc y).map fun o => if o = Ordering.gt then y else acc) h

/-! ## Bounds (`bounds.rs`) -/

structure Bounds where
  min : Tuple
  max : Tuple
  deriving DecidableEq, Repr

def bound (bmin bmax : Tuple) : Bounds := ⟨bmin, bmax⟩
def boundSingle (p : Tuple) : Bounds := ⟨p, p⟩

/-- `Bounds::intersects` (slab method); `none` models the panic on NaN. -/
def Bounds.intersectsB (b : Bounds) (r : Ray) : Option Bool := do
  let (xtmin, xtmax) := checkAxis r.origin.x r.direction.x b.min.x b.max.x
  let (ytmin, ytmax) := checkAxis r.origin.y r.direction.y b.min.y b.max.y
  let (ztmin, ztmax) := checkAxis r.origin.z r.direction.z b.min.z b.max.z
  let tmin ← maxByXF [xtmin, ytmin, ztmin]
  let tmax ← minByXF [xtmax, ytmax, ztmax]
  pure (xfLE tmin tmax && (xfGE tmin (XF.fin 0) || xfGE tmax (XF.fin 0)))

/-- `Add for Bounds`: componentwise min/max union. -/
def Bounds.add (a b : Bounds) : Bounds :=
  ⟨pointT (Min.min a.min.x b.min.x) (Min.min a.min.y b.min.y) (Min.min a.min.z b.min.z),
   pointT (Max.max a.max.x b.max.x) (Max.max a.max.y b.max.y) (Max.max a.max.z b.max.z)⟩

/-- `Bounds::transform`: enclose the 8 transformed corners.  The source folds
`bound_single` of each corner with `+` starting from the first corner. -/
def Bounds.transformM (b : Bounds) (m : Matrix4) : Bounds :=
  let corners : List Tuple :=
    [pointT b.min.x b.min.y b.min.z,
     pointT b.min.x b.max.y b.min.z,
     pointT b.min.x b.min.y b.max.z,
     pointT b.min.x b.max.y b.max.z,
     pointT b.max.x b.min.y b.min.z,
     pointT b.max.x b.max.y b.min.z,
     pointT b.max.x b.min.y b.max.z,
     pointT b.max.x b.max.y b.max.z]
  match corners.map (fun p => boundSingle (mulTuple m p)) with
  | [] => boundSingle (pointT 0 0 0)
  | b0 :: rest => rest.foldl Bounds.add b0

/-! ## Patterns (`patterns.rs`) -/

inductive PatternKind where
  | stripe
  | gradient
  | ring
  | checkers
  deriving DecidableEq, Repr

/-- One of the four concrete `Pattern` variants: each owns two colors and its
own inverse transform. -/
structure PatternData where
  a : Color
  b : Color
  invtransform : Matrix4
  kind : PatternKind

/-- Rust `as i32 % 2` on a floored value: truncated remainder. -/
def tmod2 (i : ℤ) : ℤ := Int.tmod i 2

/-- The variant `at` functions (`Stripe`, `Gradient`, `Ring`, `Checkers`). -/
def patternAt (p : PatternData) (pt : Tuple) : Color :=
  match p.kind with
  | PatternKind.stripe => if tmod2 ⌊pt.x⌋ = 0 then p.a else p.b
  | PatternKind.gradient =>
      colorAdd p.a (colorScale (colorSub p.b p.a) (pt.x - (⌊pt.x⌋ : ℚ)))
  | PatternKind.ring =>
      if tmod2 ⌊qsqrt (pt.x ^ 2 + pt.z ^ 2)⌋ = 0 then p.a else p.b
  | PatternKind.checkers =>
      if tmod2 (⌊pt.x⌋ + ⌊pt.y⌋ + ⌊pt.z⌋) = 0 then p.a else p.b

/-- `PartialEq for SyncPattern` (trait object): compares only the inverse
transforms. -/
def patternEqB (p q : PatternData) : Bool := matrixEqB p.invtransform q.invtransform

/-! ## Materials and lights (`materials.rs`, `lights.rs`) -/

/-- `materials::Material`.  `shininess` is an `f64` in the source but every
use raises a base to it with `powf`; it is modelled as a natural exponent so
the power stays rational (`200.0` becomes `200`). -/
structure Material where
  ambient : ℚ
  color : Color
  diffuse : ℚ
  pattern : Option PatternData
  refractive_index : ℚ
  reflective : ℚ
  shininess : ℕ
  specular : ℚ
  transparency : ℚ

/-- `materials::material()`: the default material. -/
def defaultMaterial : Material :=
  { ambient := 1 / 10, color := ⟨1, 1, 1⟩, diffuse := 9 / 10, pattern := none,
    refractive_index := 1, reflective := 0, shininess := 200, specular := 9 / 10,
    transparency := 0 }

/-- `derive(PartialEq)` on `Material`: `f64` fields compare exactly, `Color`
with tolerance, the optional pattern through the trait-object `PartialEq`
(inverse transforms only, with tolerance). -/
def materialEqB (m1 m2 : Material) : Bool :=
  decide (m1.ambient = m2.ambient) && colorEqB m1.color m2.color &&
  decide (m1.diffuse = m2.diffuse) &&
  (match m1.pattern, m2.pattern with
   | none, none => true
   | some p, some q => patternEqB p q
   | _, _ => false) &&
  decide (m1.refractive_index = m2.refractive_index) &&
  decide (m1.reflective = m2.reflective) &&
  decide (m1.shininess = m2.shininess) &&
  decide (m1.specular = m2.specular) &&
  decide (m1.transparency = m2.transparency)

/-- `lights::PointLight`. -/
structure PointLight where
  intensity : Color
  position : Tuple

/-! ## Shapes (`shapes.rs`, `groups.rs`)

The trait object `dyn Shape` is embedded as a closed sum: a `group` carries its
inverse transform, child list and cached aggregate bounds exactly as
`groups::Group`; every non-group primitive is a `prim` carrying its material,
inverse transform, local bounds, and its variant-specific `local_intersects`
(the list of `t` values, tagged by the caller with the shape itself) and
`local_normal_at` functions.  The claims under verification quantify over the
group/trait-level algorithms, never over a specific primitive's formula, so
the primitive payload stays abstract while the trait plumbing is translated
verbatim. -/

inductive Shape where
  | prim (material : Material) (invtransform : Matrix4) (localBounds : Bounds)
      (localT : Ray → List ℚ) (localN : Tuple → Tuple)
  | group (invtransform : Matrix4) (children : List Shape) (bounds : Bounds)

/-- `shapes::Shape::invtransform` (both variants store it directly). -/
def Shape.invtransformOf : Shape → Matrix4
  | Shape.prim _ inv _ _ _ => inv
  | Shape.group inv _ _ => inv

/-- `Shape::local_bounds`: a group returns its cached bounds. -/
def Shape.localBoundsOf : Shape → Bounds
  | Shape.prim _ _ b _ _ => b
  | Shape.group _ _ b => b

/-- `Shape::material`: a group delegates to `children[0]` — a panic (`none`)
when the group is empty. -/
def Shape.materialOf : Shape → Option Material
  | Shape.prim m _ _ _ _ => some m
  | Shape.group _ cs _ =>
    match cs with
    | [] => none
    | c :: _ => Shape.materialOf c

/-- `Shape::set_material`: primitives replace their material, `Group`'s
override has an empty body. -/
def Shape.setMaterial : Shape → Material → Shape
  | Shape.prim _ inv b lt ln, m => Shape.prim m inv b lt ln
  | Shape.group inv cs b, _ => Shape.group inv cs b

/-- `Shape::world_to_object`: default applies the inverse transform; `Group`
overrides it to recurse into `children[0]` after applying its own. -/
def Shape.worldToObject : Shape → Tuple → Option Tuple
  | Shape.prim _ inv _ _ _, p => some (mulTuple inv p)
  | Shape.group inv cs _, p =>
    match cs with
    | [] => none
    | c :: _ => Shape.worldToObject c (mulTuple inv p)

/-- `Shape::normal_to_world`: default transposes the inverse transform, zeroes
`w`, renormalizes; `Group` first recurses into `children[0]`. -/
def Shape.normalToWorld : Shape → Tuple → Option Tuple
  | Shape.prim _ inv _ _ _, n =>
    some (normalized { mulTuple (transposeRT inv) n with w := 0 })
  | Shape.group inv cs _, n =>
    match cs with
    | [] => none
    | c :: _ =>
      (Shape.normalToWorld c n).map fun cn =>
        normalized { mulTuple (transposeRT inv) cn with w := 0 }

/-- `Shape::local_normal_at`: a group delegates to `children[0]`. -/
def Shape.localNormalAt : Shape → Tuple → Option Tuple
  | Shape.prim _ _ _ _ ln, p => some (ln p)
  | Shape.group _ cs _, p =>
    match cs with
    | [] => none
    | c :: _ => Shape.localNormalAt c p

/-- `Shape::normal_at` (trait default, used by all variants). -/
def Shape.normalAt (s : Shape) (worldPoint : Tuple) : Option Tuple := do
  let localPoint ← s.worldToObject worldPoint
  let localNormal ← s.localNormalAt localPoint
  s.normalToWorld localNormal

/-- `PartialEq for Shape` (trait object): material and inverse transform.  The
`&&` short-circuits, so the possibly-panicking `material()` of an empty group
is reached only as the source reaches it. -/
def shapeEqB (s1 s2 : Shape) : Option Bool := do
  let m1 ← s1.materialOf
  let m2 ← s2.materialOf
  pure (materialEqB m1 m2 && matrixEqB s1.invtransformOf s2.invtransformOf)

/-! ## Intersections (`intersections.rs`) -/

/-- `intersections::EPSILON = 1e-10`. -/
def EPSILON : ℚ := 1 / 10000000000

structure Intersection where
  t : ℚ
  object : Shape

/-- `PartialEq for Intersection`: `t` exactly, then the object (short-circuit:
the object comparison — which may panic on an empty group — runs only when the
`t`s are equal, as in the source). -/
def ieqB (a b : Intersection) : Option Bool :=
  if a.t = b.t then shapeEqB a.object b.object else some false

/-- Ordering used by `sort_by(|a, b| a.t.partial_cmp(&b.t).unwrap())`.  The
`t` values are rationals in the embedding, so the comparator is total; Rust's
stable sort is modelled by insertion sort (stable, same key). -/
def tLE (a b : Intersection) : Prop := a.t ≤ b.t

instance : DecidableRel tLE := fun a b => inferInstanceAs (Decidable (a.t ≤ b.t))

instance : IsTotal Intersection tLE := ⟨fun a b => le_total a.t b.t⟩

instance : IsTrans Intersection tLE := ⟨fun _ _ _ h1 h2 => le_trans h1 h2⟩

def sortT (xs : List Intersection) : List Intersection := List.insertionSort tLE xs

/-- `intersections::hit`: filter `t >= 0`, then `min_by` on `t`
(`Iterator::min_by` keeps the first of equally-minimal elements). -/
def minByT : List Intersection → Option Intersection
  | [] => none
  | h :: rest => some (rest.foldl (fun acc x => if x.t < acc.t then x else acc) h)

def hitRT (xs : List Intersection) : Option Intersection :=
  minByT (xs.filter fun x => decide (0 ≤ x.t))

/-! ## Group wrapping and ray/shape intersection (`groups.rs`, `shapes.rs`) -/

/-- `Group::wrap`: a synthetic single-child group with this group's transform
and the child's local bounds. -/
def wrapG (invtransform : Matrix4) (child : Shape) : Shape :=
  Shape.group invtransform [child] child.localBoundsOf

mutual

/-- `Shape::intersects` (trait default) and `local_intersects` of each variant.
A `prim`'s `local_intersects` returns its `t` values tagged with the shape
handle the caller passed (the shape itself); `Group::local_intersects`
short-circuits on an empty child list, then slab-tests its cached bounds, then
intersects every child in order, rewraps each hit's object via `wrap`, and
stable-sorts the concatenation by `t`.  `intersectsChildren` is the
`flat_map` over children written as explicit recursion; `none` propagates a
panic from the bounds test. -/
def Shape.intersects (s : Shape) (r : Ray) : Option (List Intersection) :=
  Shape.localIntersects s (r.transformM s.invtransformOf)

def Shape.localIntersects : Shape → Ray → Option (List Intersection)
  | Shape.prim m inv b lt ln, r =>
    some ((lt r).map fun t => ⟨t, Shape.prim m inv b lt ln⟩)
  | Shape.group inv cs b, r =>
    if cs.isEmpty then some []
    else
      match Bounds.intersectsB b r with
      | none => none
      | some false => some []
      | some true =>
        (intersectsChildren cs r).map fun ls =>
          sortT ((ls.flatten).map fun i => { i with object := wrapG inv i.object })

def intersectsChildren : List Shape → Ray → Option (List (List Intersection))
  | [], _ => some []
  | c :: rest, r => do
    let xs ← Shape.intersects c r
    let others ← intersectsChildren rest r
    pure (xs :: others)

end

/-! ## Computations (`intersections.rs`: `Comps`, `prepare_computations`) -/

structure Comps where
  eyev : Tuple
  inside : Bool
  normalv : Tuple
  object : Shape
  over_point : Tuple
  point : Tuple
  under_point : Tuple
  reflectv : Tuple
  t : ℚ
  n1 : ℚ
  n2 : ℚ

/-- `Vec::contains(&x.object)` inside `prepare_computations`: linear scan with
the trait-object `PartialEq`; `none` propagates a panic from `material()`. -/
def containsShape : List Shape → Shape → Option Bool
  | [], _ => some false
  | c :: rest, o => do
    let b ← shapeEqB c o
    if b then pure true else containsShape rest o

/-- The `filter(|o| !o.eq(&x.object))` removal pass. -/
def removeShape : List Shape → Shape → Option (List Shape)
  | [], _ => some []
  | c :: rest, o => do
    let b ← shapeEqB c o
    let tail ← removeShape rest o
    pure (if b then tail else c :: tail)

/-- One step of the containers discipline: if the stack already contains the
object remove every copy (the push guard keeps the stack duplicate-free, so
this removes exactly the one occurrence), else push it. -/
def updateContainers (containers : List Shape) (o : Shape) : Option (List Shape) := do
  let b ← containsShape containers o
  if b then removeShape containers o else pure (containers ++ [o])

/-- `containers.last().map_or(1., |o| o.material().refractive_index)`. -/
def topRefractive (containers : List Shape) : Option ℚ :=
  match containers.getLast? with
  | none => some 1
  | some o => (Shape.materialOf o).map fun m => m.refractive_index

/-- The `for x in xs` loop of `prepare_computations` that computes `n1`/`n2`:
`n1` and `n2` start at `0.0`; at the first element equal to the target the
stack top (before and after processing that element) is read and the loop
breaks.  `none` models a panic inside a shape comparison or material access. -/
def n1n2Loop (i : Intersection) : List Intersection → List Shape → Option (ℚ × ℚ)
  | [], _ => some (0, 0)
  | x :: rest, containers => do
    let isHit ← ieqB i x
    if isHit then do
      let n1 ← topRefractive containers
      let containers1 ← updateContainers containers x.object
      let n2 ← topRefractive containers1
      pure (n1, n2)
    else do
      let containers1 ← updateContainers containers x.object
      n1n2Loop i rest containers1

def computeN1N2 (i : Intersection) (xs : List Intersection) : Option (ℚ × ℚ) :=
  n1n2Loop i xs []

/-- `Intersection::prepare_computations`. -/
def prepareComputations (i : Intersection) (r : Ray) (xs : List Intersection) :
    Option Comps := do
  let (n1, n2) ← computeN1N2 i xs
  let point := r.position i.t
  let normalv0 ← i.object.normalAt point
  let eyev := negT r.direction
  let inside := decide (dotT normalv0 eyev < 0)
  let normalv := if inside then negT normalv0 else normalv0
  let over_point := addT point (scaleT normalv EPSILON)
  let under_point := subT point (scaleT normalv EPSILON)
  let reflectv := reflectT r.direction normalv
  pure { eyev, inside, normalv, object := i.object, over_point, point,
         under_point, reflectv, t := i.t, n1, n2 }

/-- `Comps::is_internal_reflection` (Snell's law, total internal reflection
test). -/
def Comps.isInternalReflection (c : Comps) : Bool :=
  let nr := c.n1 / c.n2
  let cosI := dotT c.eyev c.normalv
  let sin2T := nr ^ 2 * (1 - cosI ^ 2)
  decide (1 < sin2T)

/-- `Comps::refracted_direction`. -/
def Comps.refractedDirection (c : Comps) : Tuple :=
  let nr := c.n1 / c.n2
  let cosI := dotT c.eyev c.normalv
  let sin2T := nr ^ 2 * (1 - cosI ^ 2)
  let cosT := qsqrt (1 - sin2T)
  subT (scaleT c.normalv (nr * cosI - cosT)) (scaleT c.eyev nr)

/-- The shared tail of `Comps::schlick` after `cos` has been fixed. -/
def schlickTail (n1 n2 cos : ℚ) : ℚ :=
  let r0 := ((n1 - n2) / (n1 + n2)) ^ 2
  r0 + (1 - r0) * (1 - cos) ^ 5

/-- `Comps::schlick`. -/
def Comps.schlick (c : Comps) : ℚ :=
  let cos := dotT c.eyev c.normalv
  if c.n2 < c.n1 then
    let n := c.n1 / c.n2
    let sin2T := n ^ 2 * (1 - cos ^ 2)
    if 1 < sin2T then 1
    else schlickTail c.n1 c.n2 (qsqrt (1 - sin2T))
  else schlickTail c.n1 c.n2 cos

/-! ## Lighting (`patterns.rs::at_shape`, `materials.rs::lighting`) -/

/-- `Pattern::at_shape` (trait default): shape point via `world_to_object`,
pattern point via the pattern's own inverse transform, then the variant `at`. -/
def patternAtShape (p : PatternData) (shape : Shape) (worldPoint : Tuple) :
    Option Color :=
  (shape.worldToObject worldPoint).map fun shapePoint =>
    patternAt p (mulTuple p.invtransform shapePoint)

/-- The surface color resolved by `lighting`'s first two lines:
`self.pattern.as_ref().map(|p| p.at_shape(object, position))` with the base
color as fallback. -/
def surfaceColorOf (m : Material) (object : Shape) (position : Tuple) :
    Option Color :=
  match m.pattern with
  | some p => patternAtShape p object position
  | none => some m.color

/-- `Material::lighting`.  `reflect_dot_eye.powf(self.shininess)` at the
natural exponent is the iterated product. -/
def lighting (m : Material) (object : Shape) (light : PointLight)
    (position eye normal : Tuple) (in_shadow : Bool) : Option Color := do
  let surface ← surfaceColorOf m object position
  let effective_color := colorMul surface light.intensity
  let lightv := normalized (subT light.position position)
  let ambient := colorScale effective_color m.ambient
  let light_dot_normal := dotT lightv normal
  let diffuse :=
    if light_dot_normal < 0 ∨ in_shadow then blackC
    else colorScale (colorScale effective_color m.diffuse) light_dot_normal
  let reflectv := reflectT (negT lightv) normal
  let reflect_dot_eye := dotT reflectv eye
  let specular :=
    if reflect_dot_eye ≤ 0 ∨ in_shadow then blackC
    else colorScale (colorScale light.intensity m.specular) (reflect_dot_eye ^ m.shininess)
  pure (colorAdd (colorAdd ambient diffuse) specular)

/-! ## World (`world.rs`) -/

/-- `world::MAX_REFLECTIONS` (an `i8` in the source; the recursion budget is
modelled as `ℕ`, faithful on the nonnegative budgets the program uses — see
the C3 theorem). -/
def MAX_REFLECTIONS : ℕ := 6

structure World where
  objects : List Shape
  light_sources : List PointLight

/-- `World::intersects`: flat-map every object's `intersects`, then sort by
`t` — written as explicit recursion like `intersectsChildren`. -/
def worldIntersectsList : List Shape → Ray → Option (List Intersection)
  | [], _ => some []
  | o :: rest, r => do
    let xs ← o.intersects r
    let others ← worldIntersectsList rest r
    pure (xs ++ others)

def World.intersectsW (w : World) (r : Ray) : Option (List Intersection) :=
  (worldIntersectsList w.objects r).map sortT

/-- `World::is_shadowed`. -/
def World.isShadowed (w : World) (light : PointLight) (point : Tuple) :
    Option Bool := do
  let v := subT light.position point
  let distance := magnitude v
  let direction := normalized v
  let xs ← w.intersectsW (rayMk point direction)
  pure (match hitRT xs with
        | some h => decide (h.t < distance)
        | none => false)

mutual

/-- `World::color_at`: nearest non-negative hit shaded, no hit ⇒ black. -/
def World.colorAt (w : World) (r : Ray) (remaining : ℕ) : Option Color := do
  let xs ← w.intersectsW r
  match hitRT xs with
  | some h => do
    let comps ← prepareComputations h r xs
    World.shadeHit w comps remaining
  | none => pure blackC
termination_by (remaining, 3, 0)

/-- `World::shade_hit`: per-light sum of `lighting + reflected*refl +
refracted*refr`, with the Fresnel (Schlick) blend when the material is both
reflective and transparent. -/
def World.shadeHit (w : World) (comps : Comps) (remaining : ℕ) : Option Color := do
  let colors ← World.shadeHitLights w comps remaining w.light_sources
  pure (colors.foldl colorAdd blackC)
termination_by (remaining, 2, 0)

/-- The `light_sources.iter().map(..)` closure of `shade_hit`, one recursive
step per light. -/
def World.shadeHitLights (w : World) (comps : Comps) (remaining : ℕ) :
    (lights : List PointLight) → Option (List Color)
  | [] => pure []
  | light :: rest => do
    let material ← comps.object.materialOf
    let rr : ℚ × ℚ :=
      if 0 < material.reflective ∧ 0 < material.transparency then
        let reflectance := comps.schlick
        (reflectance, 1 - reflectance)
      else (1, 1)
    let sh ← w.isShadowed light comps.over_point
    let lit ← lighting material comps.object light comps.over_point comps.eyev
        comps.normalv sh
    let refl ← World.reflectedColor w comps remaining
    let refr ← World.refractedColor w comps remaining
    let c := colorAdd (colorAdd lit (colorScale refl rr.1)) (colorScale refr rr.2)
    let cs ← World.shadeHitLights w comps remaining rest
    pure (c :: cs)
termination_by lights => (remaining, 1, lights.length)

/-- `World::reflected_color`: black if `remaining < 1` (the short-circuiting
`||` means the material is not read in that case) or the material is not
reflective; else recurse along the reflection ray with `remaining - 1`. -/
def World.reflectedColor (w : World) (comps : Comps) (remaining : ℕ) :
    Option Color :=
  match remaining with
  | 0 => pure blackC
  | rem + 1 => do
    let material ← comps.object.materialOf
    if material.reflective = 0 then pure blackC
    else
      (World.colorAt w (rayMk comps.over_point comps.reflectv) rem).map
        fun c => colorScale c material.reflective
termination_by (remaining, 0, 0)

/-- `World::refracted_color`: black at depth 0, on a non-transparent material,
or under total internal reflection; else recurse along the refracted ray with
`remaining - 1`. -/
def World.refractedColor (w : World) (comps : Comps) (remaining : ℕ) :
    Option Color :=
  match remaining with
  | 0 => pure blackC
  | rem + 1 => do
    let material ← comps.object.materialOf
    if material.transparency = 0 then pure blackC
    else if comps.isInternalReflection then pure blackC
    else
      (World.colorAt w (rayMk comps.under_point comps.refractedDirection) rem).map
        fun c => colorScale c material.transparency
termination_by (remaining, 0, 0)

end

/-! ## Canvas (`canvas.rs`) and camera (`camera.rs`) -/

structure Canvas where
  width : ℕ
  height : ℕ
  pixels : List Color

/-- `canvas::canvas`. -/
def canvasMk (width height : ℕ) : Canvas :=
  ⟨width, height, List.replicate (width * height) blackC⟩

/-- `Canvas::write_pixel` (row-major index `width * y + x`). -/
def Canvas.writePixel (cv : Canvas) (x y : ℕ) (c : Color) : Canvas :=
  { cv with pixels := cv.pixels.set (cv.width * y + x) c }

/-- `Canvas::pixel_at`; `none` is the out-of-bounds indexing panic (never hit
by in-range pixels). -/
def Canvas.pixelAt (cv : Canvas) (x y : ℕ) : Option Color :=
  cv.pixels[cv.width * y + x]?

/-- `camera::Camera` after construction: the claims quantify over arbitrary
cameras, so the `tan`-based constructor (transcendental) is not needed; the
struct carries the derived fields exactly as the source does. -/
structure Camera where
  hsize : ℕ
  vsize : ℕ
  invtransform : Matrix4
  pixel_size : ℚ
  half_width : ℚ
  half_height : ℚ

/-- `Camera::ray_for_pixel`. -/
def Camera.rayForPixel (c : Camera) (x y : ℕ) : Ray :=
  let xoffset := ((x : ℚ) + 1 / 2) * c.pixel_size
  let yoffset := ((y : ℚ) + 1 / 2) * c.pixel_size
  let world_x := c.half_width - xoffset
  let world_y := c.half_height - yoffset
  let pixel := mulTuple c.invtransform (pointT world_x world_y (-1))
  let origin := mulTuple c.invtransform (pointT 0 0 0)
  let direction := normalized (subT pixel origin)
  rayMk origin direction

/-- `Camera::render`: `for x in 0..width { for y in 0..height { .. } }`,
single-threaded; `none` propagates a panic from `color_at`. -/
def Camera.render (c : Camera) (w : World) : Option Canvas :=
  (List.range c.hsize).foldlM
    (fun cv x =>
      (List.range c.vsize).foldlM
        (fun cv2 y =>
          (World.colorAt w (c.rayForPixel x y) MAX_REFLECTIONS).map fun col =>
            cv2.writePixel x y col)
        cv)
    (canvasMk c.hsize c.vsize)

/-- `Camera::render_async` for one worker: each index `i` of its range is
decoded as `(i % hsize, i / hsize)` and the `(x, y, color)` triple is sent on
the channel.  The claim under verification (C8) assumes every send succeeds,
so the `Err ⇒ break` arm is not taken and the emitted stream is the full
list. -/
def Camera.renderAsync (c : Camera) (w : World) (ix : List ℕ) :
    Option (List (ℕ × ℕ × Color)) :=
  ix.mapM fun i =>
    let x := i % c.hsize
    let y := i / c.hsize
    (World.colorAt w (c.rayForPixel x y) MAX_REFLECTIONS).map fun col => (x, y, col)

/-! ## Group construction (`groups.rs`: `group`, `add_child_rc`) -/

/-- `groups::group()`. -/
def groupMk : Shape := Shape.group identityMatrix [] (boundSingle (pointT 0 0 0))

/-- A child's local bounds re-projected into the group's local frame:
`c.local_bounds().transform(&c.invtransform().inverse())`. -/
def reprojectedBounds (c : Shape) : Bounds :=
  c.localBoundsOf.transformM (inverseRT c.invtransformOf)

/-- The "unsafe sum" of `add_child_rc`: `unwrap` the first element (`none` is
the panic on an empty list, unreachable because the child was just pushed) and
fold the rest with `+`. -/
def foldBounds : List Bounds → Option Bounds
  | [] => none
  | b :: rest => some (rest.foldl Bounds.add b)

/-- `Group::add_child_rc` (and `add_child`, which only wraps the child in an
`Arc` first): push the child, then recompute the aggregate bounds from the
full child list. -/
def addChildRc (inv : Matrix4) (cs : List Shape) (_bnds : Bounds) (c : Shape) :
    Option Shape :=
  let children := cs ++ [c]
  (foldBounds (children.map reprojectedBounds)).map fun nb =>
    Shape.group inv children nb

/-! ## Spec-side definitions

These follow the wording of the specification (not the source) and exist only
to be compared with the source-derived definitions above. -/

/-- Spec-side (for C7): "the fold-union over all current children of
child.local_bounds() transformed by the child's forward transform (the
inverse of its stored inverse-transform)". -/
def specAggregateBounds : List Shape → Option Bounds
  | [] => none
  | c :: rest =>
    some (rest.foldl (fun acc ch => acc.add (reprojectedBounds ch)) (reprojectedBounds c))

/-- Spec-side (for C2): "walk the sorted Intersection list maintaining a
'currently inside' stack of object handles; at each intersection, if it
already contains the object, remove it (exiting), else push it (entering); n1
is read from the top of the stack *before* processing the target intersection,
n2 *after*."  `pre` is the part of the list strictly before the target's first
occurrence `x`; the per-element stack step is the discipline just quoted
(`updateContainers`). -/
def specN1N2 (pre : List Intersection) (x : Intersection) : Option (ℚ × ℚ) := do
  let stackBefore ← pre.foldlM (fun st y => updateContainers st y.object) []
  let n1 ← topRefractive stackBefore
  let stackAfter ← updateContainers stackBefore x.object
  let n2 ← topRefractive stackAfter
  pure (n1, n2)

/-! ## Concrete fixtures used by witness theorems -/

/-- A primitive with unit local bounds, identity transform, default material,
and no local intersections. -/
def wPrim1 : Shape :=
  Shape.prim defaultMaterial identityMatrix
    (bound (pointT (-1) (-1) (-1)) (pointT 1 1 1)) (fun _ => []) (fun t => t)

/-- The group obtained by adding `wPrim1` to the fresh group. -/
def wGroupAfter : Shape :=
  Shape.group identityMatrix ([] ++ [wPrim1]) (reprojectedBounds wPrim1)

/-- The row-major pixel traversal order of `Camera::render`
(`for x in 0..width { for y in 0..height { .. } }`). -/
def pairList (W H : ℕ) : List (ℕ × ℕ) :=
  (List.range W).flatMap fun x => (List.range H).map fun y => (x, y)

/-- A 1×1 camera with the identity inverse transform. -/
def wCam1 : Camera := ⟨1, 1, identityMatrix, 0, 0, 0⟩

/-- A concrete `Comps` record over `wPrim1`. -/
def wComps0 : Comps :=
  { eyev := vectorT 0 0 (-1), inside := false, normalv := vectorT 0 0 (-1),
    object := wPrim1, over_point := pointT 0 0 0, point := pointT 0 0 0,
    under_point := pointT 0 0 0, reflectv := vectorT 0 0 (-1), t := 1,
    n1 := 1, n2 := 1 }

/-! ## Claim theorems -/

/-- Claim C9 (status: code bug).  `Bounds::intersects` is *not* total: with
the unit box and the ray with origin `(-1, 0, 0)` (on the `x = min.x` slab
boundary) and direction `(0, 0, 1)` (zero `x` and `y` components), the x-axis
`check_axis` computes `0.0 / 0.0 = NaN`, and the `max_by` comparator's
`partial_cmp(..).unwrap()` panics (`none` in the embedding), contradicting the
claim that `intersects` always returns a boolean and never panics. -/
theorem c9_bounds_intersects_panics :
    Bounds.intersectsB (bound (pointT (-1) (-1) (-1)) (pointT 1 1 1))
      (rayMk (pointT (-1) 0 0) (vectorT 0 0 1)) = none := by
  have h1 : checkAxis (-1) 0 (-1) 1 = (XF.nan, XF.pinf) := by
    norm_num [checkAxis, xfDiv, xfGT, xfCmp]
    all_goals simp
  have h2 : checkAxis 0 0 (-1) 1 = (XF.ninf, XF.pinf) := by
    norm_num [checkAxis, xfDiv, xfGT, xfCmp]
    all_goals simp
  have h3 : checkAxis 0 1 (-1) 1 = (XF.fin (-1), XF.fin 1) := by
    norm_num [checkAxis, xfDiv, xfGT, xfCmp]
    all_goals simp
  have h4 : maxByXF [XF.nan, XF.ninf, XF.fin (-1)] = none := by
    simp [maxByXF, xfCmp]
  simp only [Bounds.intersectsB, bound, rayMk, pointT, vectorT]
  norm_num [h1, h2, h3, h4]

/-- Claim C10: `Group::set_material` has an empty body, so it leaves the group
unchanged — inverse transform, child list and cached bounds all retain their
values — and `material()` still delegates to the first child. -/
theorem c10_group_set_material_noop (inv : Matrix4) (cs : List Shape)
    (b : Bounds) (m : Material) :
    Shape.setMaterial (Shape.group inv cs b) m = Shape.group inv cs b ∧
    (Shape.setMaterial (Shape.group inv cs b) m).materialOf =
      (Shape.group inv cs b).materialOf ∧
    (∀ c cs2, cs = c :: cs2 →
      (Shape.setMaterial (Shape.group inv cs b) m).materialOf = c.materialOf) := by
  refine ⟨rfl, rfl, ?_⟩
  intro c cs2 h
  subst h
  simp [Shape.setMaterial, Shape.materialOf]

/-- Witness for C10: a concrete group with one primitive child keeps its
child's material after `set_material`. -/
theorem c10_group_set_material_noop_witness :
    (Shape.setMaterial
        (Shape.group identityMatrix
          [Shape.prim defaultMaterial identityMatrix (boundSingle (pointT 0 0 0))
            (fun _ => []) (fun t => t)]
          (boundSingle (pointT 0 0 0)))
        { defaultMaterial with ambient := 1 }).materialOf =
      (Shape.prim defaultMaterial identityMatrix (boundSingle (pointT 0 0 0))
        (fun _ => []) (fun t => t)).materialOf :=
  (c10_group_set_material_noop identityMatrix
    [Shape.prim defaultMaterial identityMatrix (boundSingle (pointT 0 0 0))
      (fun _ => []) (fun t => t)]
    (boundSingle (pointT 0 0 0)) { defaultMaterial with ambient := 1 }).2.2
    _ _ rfl

/-- Claim C7: after `add_child_rc` (hence also `add_child`) the stored bounds
is recomputed from the *full* current child list — it equals the spec's
fold-union of every child's re-projected local bounds and does not depend on
the previously cached bounds. -/
theorem c7_add_child_recomputes_bounds (inv : Matrix4) (cs : List Shape)
    (b : Bounds) (c : Shape) :
    ∀ g2, addChildRc inv cs b c = some g2 →
      (∃ nb, g2 = Shape.group inv (cs ++ [c]) nb ∧
        specAggregateBounds (cs ++ [c]) = some nb) ∧
      (∀ b2, addChildRc inv cs b2 c = some g2) := by
  intro g2 hg
  have hcons : ∃ h t, cs ++ [c] = h :: t := by
    cases cs with
    | nil => exact ⟨c, [], rfl⟩
    | cons a l => exact ⟨a, l ++ [c], rfl⟩
  obtain ⟨h, t, hht⟩ := hcons
  rw [addChildRc, hht] at hg
  simp only [List.map_cons, foldBounds, Option.map_some', Option.some.injEq] at hg
  constructor
  · refine ⟨(t.map reprojectedBounds).foldl Bounds.add (reprojectedBounds h), ?_, ?_⟩
    · rw [← hg, hht]
    · rw [hht, specAggregateBounds, List.foldl_map]
  · intro b2
    rw [addChildRc, hht]
    simp only [List.map_cons, foldBounds, Option.map_some', Option.some.injEq]
    exact hg

/-- Witness for C7: adding a unit-bounds primitive child to the empty group
produces the recomputed aggregate bounds. -/
theorem c7_add_child_recomputes_bounds_witness :
    (∃ nb, wGroupAfter = Shape.group identityMatrix ([] ++ [wPrim1]) nb ∧
        specAggregateBounds ([] ++ [wPrim1]) = some nb) ∧
    (∀ b2, addChildRc identityMatrix [] b2 wPrim1 = some wGroupAfter) :=
  c7_add_child_recomputes_bounds identityMatrix [] (boundSingle (pointT 0 0 0))
    wPrim1 wGroupAfter rfl

/-! ### Helper lemmas for `hit` -/

theorem foldlMin_mem (l : List Intersection) (acc : Intersection) :
    l.foldl (fun a x => if x.t < a.t then x else a) acc = acc ∨
      l.foldl (fun a x => if x.t < a.t then x else a) acc ∈ l := by
  induction l generalizing acc with
  | nil => exact Or.inl rfl
  | cons h t ih =>
    simp only [List.foldl_cons]
    rcases ih (if h.t < acc.t then h else acc) with h1 | h1
    · rw [h1]
      by_cases hc : h.t < acc.t <;> simp [hc]
    · exact Or.inr (List.mem_cons_of_mem _ h1)

theorem foldlMin_le (l : List Intersection) (acc : Intersection) :
    (l.foldl (fun a x => if x.t < a.t then x else a) acc).t ≤ acc.t ∧
      ∀ x ∈ l, (l.foldl (fun a x => if x.t < a.t then x else a) acc).t ≤ x.t := by
  induction l generalizing acc with
  | nil => exact ⟨le_refl _, by simp⟩
  | cons h t ih =>
    simp only [List.foldl_cons]
    obtain ⟨ih1, ih2⟩ := ih (if h.t < acc.t then h else acc)
    have hstep : (if h.t < acc.t then h else acc).t ≤ acc.t ∧
        (if h.t < acc.t then h else acc).t ≤ h.t := by
      by_cases hc : h.t < acc.t
      · simp only [if_pos hc]; exact ⟨le_of_lt hc, le_refl _⟩
      · simp only [if_neg hc]; exact ⟨le_refl _, le_of_not_lt hc⟩
    refine ⟨le_trans ih1 hstep.1, ?_⟩
    intro x hx
    rcases List.mem_cons.mp hx with hx | hx
    · rw [hx]; exact le_trans ih1 hstep.2
    · exact ih2 x hx

theorem minByT_none_iff (l : List Intersection) : minByT l = none ↔ l = [] := by
  cases l with
  | nil => simp [minByT]
  | cons h t => simp [minByT]

theorem minByT_spec (l : List Intersection) (m : Intersection)
    (hm : minByT l = some m) : m ∈ l ∧ ∀ x ∈ l, m.t ≤ x.t := by
  cases l with
  | nil => simp [minByT] at hm
  | cons h t =>
    simp only [minByT, Option.some.injEq] at hm
    subst hm
    constructor
    · rcases foldlMin_mem t h with h1 | h1
      · rw [h1]; exact List.mem_cons_self h t
      · exact List.mem_cons_of_mem _ h1
    · intro x hx
      obtain ⟨le1, le2⟩ := foldlMin_le t h
      rcases List.mem_cons.mp hx with hx | hx
      · exact hx ▸ le1
      · exact le2 x hx

/-- Claim C4: `hit` selects the smallest non-negative-`t` intersection and is
`None` exactly when every `t` is negative; consequently `color_at` on a scene
whose intersections are all behind the ray (or absent) is black. -/
theorem c4_hit_nearest_nonneg :
    (∀ xs : List Intersection,
      ((∀ x ∈ xs, x.t < 0) → hitRT xs = none) ∧
      (hitRT xs = none → ∀ x ∈ xs, x.t < 0) ∧
      (∀ h, hitRT xs = some h →
        h ∈ xs ∧ 0 ≤ h.t ∧ ∀ x ∈ xs, 0 ≤ x.t → h.t ≤ x.t)) ∧
    (∀ (w : World) (r : Ray) (d : ℕ) (xs : List Intersection),
      w.intersectsW r = some xs → (∀ x ∈ xs, x.t < 0) →
      World.colorAt w r d = some blackC) := by
  have hmain : ∀ xs : List Intersection,
      ((∀ x ∈ xs, x.t < 0) → hitRT xs = none) ∧
      (hitRT xs = none → ∀ x ∈ xs, x.t < 0) ∧
      (∀ h, hitRT xs = some h →
        h ∈ xs ∧ 0 ≤ h.t ∧ ∀ x ∈ xs, 0 ≤ x.t → h.t ≤ x.t) := by
    intro xs
    refine ⟨?_, ?_, ?_⟩
    · intro hneg
      rw [hitRT, minByT_none_iff, List.filter_eq_nil_iff]
      intro x hx
      simpa using not_le.mpr (hneg x hx)
    · intro hnone x hx
      rw [hitRT, minByT_none_iff, List.filter_eq_nil_iff] at hnone
      simpa using hnone x hx
    · intro h hh
      rw [hitRT] at hh
      obtain ⟨hmem, hle⟩ := minByT_spec _ _ hh
      rw [List.mem_filter] at hmem
      refine ⟨hmem.1, by simpa using hmem.2, ?_⟩
      intro x hx hx0
      exact hle x (List.mem_filter.mpr ⟨hx, by simpa using hx0⟩)
  refine ⟨hmain, ?_⟩
  intro w r d xs hw hneg
  have hhit := (hmain xs).1 hneg
  simp [World.colorAt, hw, hhit]

/-- Witness for C4: a single negative-`t` intersection yields no hit, and the
empty world colors every ray black. -/
theorem c4_hit_nearest_nonneg_witness :
    hitRT [⟨-1, wPrim1⟩] = none ∧
    World.colorAt ⟨[], []⟩ (rayMk (pointT 0 0 0) (vectorT 0 0 1)) 6 = some blackC := by
  constructor
  · exact (c4_hit_nearest_nonneg.1 [⟨-1, wPrim1⟩]).1 (by intro x hx; simp at hx; subst hx; norm_num)
  · exact c4_hit_nearest_nonneg.2 ⟨[], []⟩ (rayMk (pointT 0 0 0) (vectorT 0 0 1)) 6 [] rfl (by simp)

/-- Claim C3: the Whitted recursion is well-founded on the depth budget.  The
mutual functions `color_at → shade_hit → reflected_color / refracted_color →
color_at` are total Lean functions (termination is certified by their very
definition, by lexicographic descent on `remaining`); `reflected_color` is
black when `remaining < 1` (without even touching the material, mirroring the
short-circuiting `||`) or when the material is non-reflective;
`refracted_color` is black at `remaining == 0`, on zero transparency, or under
total internal reflection; and each recursive `color_at` call receives exactly
`remaining - 1`. -/
theorem c3_depth_recursion_wellfounded :
    ∀ (w : World) (comps : Comps) (d : ℕ),
      (d < 1 → World.reflectedColor w comps d = some blackC) ∧
      (∀ m, comps.object.materialOf = some m → m.reflective = 0 →
        World.reflectedColor w comps d = some blackC) ∧
      (d = 0 → World.refractedColor w comps d = some blackC) ∧
      (∀ m, comps.object.materialOf = some m → m.transparency = 0 →
        World.refractedColor w comps d = some blackC) ∧
      (∀ m, comps.object.materialOf = some m → comps.isInternalReflection = true →
        World.refractedColor w comps d = some blackC) ∧
      (∀ m, comps.object.materialOf = some m → m.reflective ≠ 0 →
        World.reflectedColor w comps (d + 1) =
          (World.colorAt w (rayMk comps.over_point comps.reflectv) d).map
            (fun c => colorScale c m.reflective)) ∧
      (∀ m, comps.object.materialOf = some m → m.transparency ≠ 0 →
        comps.isInternalReflection = false →
        World.refractedColor w comps (d + 1) =
          (World.colorAt w (rayMk comps.under_point comps.refractedDirection) d).map
            (fun c => colorScale c m.transparency)) := by
  intro w comps d
  refine ⟨?_, ?_, ?_, ?_, ?_, ?_, ?_⟩
  · intro hd
    interval_cases d
    simp [World.reflectedColor]
  · intro m hm hrefl
    cases d with
    | zero => simp [World.reflectedColor]
    | succ e => simp [World.reflectedColor, hm, hrefl]
  · intro hd
    subst hd
    simp [World.refractedColor]
  · intro m hm htr
    cases d with
    | zero => simp [World.refractedColor]
    | succ e => simp [World.refractedColor, hm, htr]
  · intro m hm htir
    cases d with
    | zero => simp [World.refractedColor]
    | succ e => simp [World.refractedColor, hm, htir]
  · intro m hm hrefl
    simp [World.reflectedColor, hm, hrefl]
  · intro m hm htr htir
    simp [World.refractedColor, hm, htr, htir]

/-- Witness for C3 at a concrete world, `Comps` record and depths 0 and 1
(the default material has `reflective = 0` and `transparency = 0`). -/
theorem c3_depth_recursion_wellfounded_witness :
    World.reflectedColor ⟨[], []⟩ wComps0 0 = some blackC ∧
    World.refractedColor ⟨[], []⟩ wComps0 0 = some blackC ∧
    World.reflectedColor ⟨[], []⟩ wComps0 1 = some blackC :=
  ⟨(c3_depth_recursion_wellfounded ⟨[], []⟩ wComps0 0).1 (by norm_num),
   (c3_depth_recursion_wellfounded ⟨[], []⟩ wComps0 0).2.2.1 rfl,
   (c3_depth_recursion_wellfounded ⟨[], []⟩ wComps0 1).2.1 defaultMaterial rfl rfl⟩

/-! ### Reflexivity of the tolerance-based equalities -/

theorem closeQ_self (a : ℚ) : closeQ a a = true := by simp [closeQ]

theorem colorEqB_self (c : Color) : colorEqB c c = true := by
  simp [colorEqB, closeQ_self]

theorem matrixEqB_self {n : ℕ} (m : Matrix (Fin n) (Fin n) ℚ) :
    matrixEqB m m = true := by
  simp [matrixEqB, closeQ_self]

theorem materialEqB_self (m : Material) : materialEqB m m = true := by
  cases hp : m.pattern <;>
    simp [materialEqB, hp, colorEqB_self, patternEqB, matrixEqB_self]

theorem shapeEqB_self (s : Shape) (m : Material) (hm : s.materialOf = some m) :
    shapeEqB s s = some true := by
  simp [shapeEqB, hm, materialEqB_self, matrixEqB_self]

theorem ieqB_self (x : Intersection) (m : Material)
    (hm : x.object.materialOf = some m) : ieqB x x = some true := by
  simp [ieqB, shapeEqB_self x.object m hm]

/-! ### Helper lemmas for the n1/n2 loop (C2) -/

theorem n1n2Loop_hit (i x : Intersection) (post : List Intersection)
    (st : List Shape) (hx : ieqB i x = some true) :
    n1n2Loop i (x :: post) st =
      (topRefractive st).bind fun n1 =>
        (updateContainers st x.object).bind fun stA =>
          (topRefractive stA).bind fun n2 => some (n1, n2) := by
  simp [n1n2Loop, hx]

theorem n1n2Loop_prefix (i x : Intersection) (post : List Intersection) :
    ∀ (pre : List Intersection) (st : List Shape),
      (∀ y ∈ pre, ieqB i y = some false) →
      n1n2Loop i (pre ++ x :: post) st =
        (pre.foldlM (fun s y => updateContainers s y.object) st).bind fun stB =>
          n1n2Loop i (x :: post) stB := by
  intro pre
  induction pre with
  | nil => intro st _; simp
  | cons y pre2 ih =>
    intro st hpre
    have hy : ieqB i y = some false := hpre y (List.mem_cons_self y pre2)
    simp only [List.cons_append]
    rw [n1n2Loop]
    simp only [hy, Option.some_bind, Bool.false_eq_true, if_false]
    cases h : updateContainers st y.object with
    | none => simp [h, List.foldlM_cons]
    | some s1 =>
      simp only [h, Option.some_bind, List.foldlM_cons]
      exact ih s1 fun z hz => hpre z (List.mem_cons_of_mem _ hz)

/-- Claim C2: `prepare_computations` computes `n1`/`n2` exactly as the spec's
container-stack walk describes: writing the sorted list as `pre ++ x :: post`
where `x` is the first element equal (by the source's `Intersection`
equality) to the target `i`, the loop's result is the stack top (refractive
index, `1.0` on empty) just before processing `x` and just after, the stack
being maintained by remove-if-present / push-otherwise over `pre`. -/
theorem c2_n1n2_container_stack (i x : Intersection) (pre post : List Intersection)
    (_hsorted : List.Sorted tLE (pre ++ x :: post))
    (hpre : ∀ y ∈ pre, ieqB i y = some false)
    (hx : ieqB i x = some true) :
    computeN1N2 i (pre ++ x :: post) = specN1N2 pre x := by
  rw [computeN1N2, n1n2Loop_prefix i x post pre [] hpre, specN1N2]
  cases hfold : List.foldlM (fun s y => updateContainers s y.object) [] pre with
  | none => simp [hfold]
  | some stB => simp [hfold, n1n2Loop_hit i x post stB hx]

/-- Witness for C2: a singleton list whose only element is the target. -/
theorem c2_n1n2_container_stack_witness :
    ieqB ⟨1, wPrim1⟩ ⟨1, wPrim1⟩ = some true ∧
    computeN1N2 ⟨1, wPrim1⟩ ([] ++ ⟨1, wPrim1⟩ :: []) = specN1N2 [] ⟨1, wPrim1⟩ := by
  have hx : ieqB (⟨1, wPrim1⟩ : Intersection) ⟨1, wPrim1⟩ = some true :=
    ieqB_self _ defaultMaterial rfl
  exact ⟨hx, c2_n1n2_container_stack _ _ [] [] (by simp) (by simp) hx⟩

/-! ### Helper lemmas for group intersection (C1) -/

theorem intersectsChildren_eq_map (r : Ray) (f : Shape → List Intersection) :
    ∀ cs : List Shape, (∀ c ∈ cs, Shape.intersects c r = some (f c)) →
      intersectsChildren cs r = some (cs.map f) := by
  intro cs
  induction cs with
  | nil => intro _; simp [intersectsChildren]
  | cons c rest ih =>
    intro h
    rw [intersectsChildren]
    rw [h c (List.mem_cons_self c rest), ih fun z hz => h z (List.mem_cons_of_mem _ hz)]
    rfl

/-- Claim C1: `Group::local_intersects` on a ray already in the group's local
frame: an empty child list, or a bounds slab-test miss, yields the empty list
(the children are never consulted — for an empty group not even the bounds
test runs); otherwise the result is the stable sort by ascending `t` of the
concatenation, in child order, of each child's intersections, with every hit's
object rewrapped into a single-child synthetic group carrying this group's
transform and the child's local bounds. -/
theorem c1_group_local_intersects (inv : Matrix4) (cs : List Shape) (b : Bounds)
    (r : Ray) :
    (cs = [] → Shape.localIntersects (Shape.group inv cs b) r = some []) ∧
    (Bounds.intersectsB b r = some false →
      Shape.localIntersects (Shape.group inv cs b) r = some []) ∧
    (∀ f : Shape → List Intersection, Bounds.intersectsB b r = some true →
      (∀ c ∈ cs, Shape.intersects c r = some (f c)) →
      Shape.localIntersects (Shape.group inv cs b) r =
        some (sortT (((cs.map f).flatten).map
          fun i => { i with object := wrapG inv i.object })) ∧
      List.Sorted tLE (sortT (((cs.map f).flatten).map
        fun i => { i with object := wrapG inv i.object })) ∧
      (sortT (((cs.map f).flatten).map
        fun i => { i with object := wrapG inv i.object })).Perm
        (((cs.map f).flatten).map fun i => { i with object := wrapG inv i.object })) := by
  refine ⟨?_, ?_, ?_⟩
  · intro h
    subst h
    rw [Shape.localIntersects]
    rfl
  · intro hmiss
    cases cs with
    | nil => rw [Shape.localIntersects]; rfl
    | cons c rest =>
      rw [Shape.localIntersects]
      simp [hmiss]
  · intro f hhit hchild
    refine ⟨?_, List.sorted_insertionSort tLE _, List.perm_insertionSort tLE _⟩
    cases cs with
    | nil =>
      rw [Shape.localIntersects]
      simp [sortT]
    | cons c rest =>
      rw [Shape.localIntersects]
      simp only [List.isEmpty_cons, hhit]
      rw [intersectsChildren_eq_map r f _ hchild]
      rfl

/-- Witness for C1: a one-child group whose bounds the ray hits, the child
reporting no intersections. -/
theorem c1_group_local_intersects_witness :
    Bounds.intersectsB (bound (pointT (-1) (-1) (-1)) (pointT 1 1 1))
      (rayMk (pointT 0 0 0) (vectorT 0 0 1)) = some true ∧
    Shape.localIntersects
      (Shape.group identityMatrix [wPrim1]
        (bound (pointT (-1) (-1) (-1)) (pointT 1 1 1)))
      (rayMk (pointT 0 0 0) (vectorT 0 0 1)) =
      some (sortT ((([wPrim1].map fun _ => ([] : List Intersection)).flatten).map
        fun i => { i with object := wrapG identityMatrix i.object })) := by
  have hb : Bounds.intersectsB (bound (pointT (-1) (-1) (-1)) (pointT 1 1 1))
      (rayMk (pointT 0 0 0) (vectorT 0 0 1)) = some true := by
    have h2 : checkAxis 0 0 (-1) 1 = (XF.ninf, XF.pinf) := by
      norm_num [checkAxis, xfDiv, xfGT, xfCmp]
      all_goals simp
    have h3 : checkAxis 0 1 (-1) 1 = (XF.fin (-1), XF.fin 1) := by
      norm_num [checkAxis, xfDiv, xfGT, xfCmp]
      all_goals simp
    have h4 : maxByXF [XF.ninf, XF.ninf, XF.fin (-1)] = some (XF.fin (-1)) := by
      simp [maxByXF, xfCmp]
    have h5 : minByXF [XF.pinf, XF.pinf, XF.fin 1] = some (XF.fin 1) := by
      simp [minByXF, xfCmp]
    simp only [Bounds.intersectsB, bound, rayMk, pointT, vectorT]
    norm_num [h2, h3, h4, h5, xfLE, xfGE, xfCmp]
  refine ⟨hb, ?_⟩
  exact ((c1_group_local_intersects identityMatrix [wPrim1]
    (bound (pointT (-1) (-1) (-1)) (pointT 1 1 1))
    (rayMk (pointT 0 0 0) (vectorT 0 0 1))).2.2 (fun _ => []) hb
    (by intro c hc; simp only [List.mem_singleton] at hc; subst hc
        simp [Shape.intersects, Shape.localIntersects, wPrim1])).1

/-! ### C5: the lighting equation -/

/-- Counterexample for C5 as stated.  With the default material, a light
directly *below* the surface point (`dot(lightv, normal) = -1 < 0`), eye
vector `(0,-1,0)` and `in_shadow = false`: the claim says both diffuse and
specular are zero, so the result should be the ambient term
`(0.1, 0.1, 0.1)`; the code only zeroes the diffuse term — the specular test
`reflect_dot_eye <= 0` does not look at `dot(lightv, normal)` — and returns
`(1, 1, 1)` (`0.1` ambient + `0.9` specular). -/
theorem c5_lighting_claim_counterexample :
    dotT (normalized (subT (pointT 0 (-1) 0) (pointT 0 0 0))) (vectorT 0 1 0) < 0 ∧
    lighting defaultMaterial wPrim1 ⟨colorMk 1 1 1, pointT 0 (-1) 0⟩
      (pointT 0 0 0) (vectorT 0 (-1) 0) (vectorT 0 1 0) false =
      some (colorMk 1 1 1) ∧
    colorMk 1 1 1 ≠
      colorScale (colorMul (colorMk 1 1 1) (colorMk 1 1 1)) defaultMaterial.ambient := by
  have hl : normalized (subT (pointT 0 (-1) 0) (pointT 0 0 0)) = vectorT 0 (-1) 0 := by
    norm_num [normalized, magnitude, qsqrt, subT, divT, pointT, vectorT,
      Rat.num_one, Rat.den_one, Nat.sqrt_one]
  refine ⟨by rw [hl]; norm_num [dotT, vectorT], ?_, ?_⟩
  · rw [lighting]
    simp only [surfaceColorOf, defaultMaterial, Option.some_bind, hl]
    norm_num [dotT, vectorT, pointT, colorMul, colorScale, colorAdd, blackC,
      reflectT, negT, subT, scaleT, colorMk]
  · norm_num [colorMk, colorScale, colorMul, defaultMaterial]

/-- Claim C5, amended: the ambient term `effective_color * ambient` is always
included; the diffuse term is zero iff `in_shadow` or
`dot(lightVector, normal) < 0` and otherwise equals
`effective_color * diffuse * dot(lightVector, normal)`; the specular term is
zero iff `in_shadow` or the reflect/eye cosine is `<= 0` (the sign of
`dot(lightVector, normal)` does not by itself zero the specular term) and
otherwise equals `light.intensity * specular * pow(reflectDotEye, shininess)`;
when `in_shadow` the result is exactly the ambient term. -/
theorem c5_lighting_amended (m : Material) (object : Shape) (light : PointLight)
    (position eye normal : Tuple) (in_shadow : Bool) (sc : Color)
    (hsc : surfaceColorOf m object position = some sc) :
    (lighting m object light position eye normal in_shadow =
      some (colorAdd (colorAdd
        (colorScale (colorMul sc light.intensity) m.ambient)
        (if dotT (normalized (subT light.position position)) normal < 0 ∨ in_shadow
         then blackC
         else colorScale
           (colorScale (colorMul sc light.intensity) m.diffuse)
           (dotT (normalized (subT light.position position)) normal)))
        (if dotT (reflectT (negT (normalized (subT light.position position))) normal)
              eye ≤ 0 ∨ in_shadow
         then blackC
         else colorScale (colorScale light.intensity m.specular)
           (dotT (reflectT (negT (normalized (subT light.position position))) normal)
              eye ^ m.shininess)))) ∧
    (in_shadow = true →
      lighting m object light position eye normal in_shadow =
        some (colorScale (colorMul sc light.intensity) m.ambient)) := by
  constructor
  · rw [lighting]
    simp [hsc]
  · intro hsh
    subst hsh
    rw [lighting]
    simp only [hsc, Option.some_bind, or_true, if_true]
    cases sc with
    | mk r g b =>
      cases light with
      | mk intensity lpos =>
        cases intensity with
        | mk ir ig ib => simp [colorAdd, colorScale, colorMul, blackC]

/-- Witness for C5 (amended): in shadow, the default material lights to
exactly the ambient term. -/
theorem c5_lighting_amended_witness :
    lighting defaultMaterial wPrim1 ⟨colorMk 1 1 1, pointT 0 10 0⟩
      (pointT 0 0 0) (vectorT 0 1 0) (vectorT 0 1 0) true =
      some (colorScale (colorMul defaultMaterial.color (colorMk 1 1 1))
        defaultMaterial.ambient) :=
  (c5_lighting_amended defaultMaterial wPrim1 ⟨colorMk 1 1 1, pointT 0 10 0⟩
    (pointT 0 0 0) (vectorT 0 1 0) (vectorT 0 1 0) true defaultMaterial.color
    rfl).2 rfl

/-! ### C6: matrix inverse — bridge to Mathlib's determinant/adjugate -/

theorem signIf_eq_neg_one_pow (k : ℕ) :
    (if k % 2 = 0 then (1 : ℚ) else -1) = (-1) ^ k := by
  rcases Nat.even_or_odd k with h | h
  · rw [if_pos (Nat.even_iff.mp h), h.neg_one_pow]
  · rw [if_neg (by rw [Nat.odd_iff] at h; omega), h.neg_one_pow]

theorem determinantRT_succ3 (n : ℕ) (m : Matrix (Fin (n + 3)) (Fin (n + 3)) ℚ) :
    determinantRT (n + 3) m = ∑ c : Fin (n + 3),
      m 0 c * ((if ((0 : ℕ) + (c : ℕ)) % 2 = 0 then (1 : ℚ) else -1) *
        determinantRT (n + 2) (submatrixRT m 0 c)) := rfl

theorem submatrixRT_zero {n : ℕ} (m : Matrix (Fin (n + 1)) (Fin (n + 1)) ℚ)
    (c : Fin (n + 1)) :
    submatrixRT m 0 c = m.submatrix Fin.succ c.succAbove := rfl

theorem determinantRT_two (m : Matrix (Fin 2) (Fin 2) ℚ) :
    determinantRT 2 m = m.det := by
  rw [Matrix.det_fin_two]; rfl

theorem determinantRT_three (m : Matrix (Fin 3) (Fin 3) ℚ) :
    determinantRT 3 m = m.det := by
  rw [determinantRT_succ3 0 m, Matrix.det_succ_row_zero]
  refine Finset.sum_congr rfl fun c _ => ?_
  rw [determinantRT_two, submatrixRT_zero, signIf_eq_neg_one_pow]
  ring

theorem determinantRT_four (m : Matrix4) : determinantRT 4 m = m.det := by
  rw [determinantRT_succ3 1 m, Matrix.det_succ_row_zero]
  refine Finset.sum_congr rfl fun c _ => ?_
  rw [determinantRT_three, submatrixRT_zero, signIf_eq_neg_one_pow]
  ring

theorem cofactorRT_eq_adjugate (m : Matrix4) (i j : Fin 4) :
    cofactorRT m j i = m.adjugate i j := by
  rw [Matrix.adjugate_fin_succ_eq_det_submatrix, cofactorRT, determinantRT_three,
    signIf_eq_neg_one_pow]
  rfl

theorem inverseRT_eq_inv (m : Matrix4) : inverseRT m = m⁻¹ := by
  rw [Matrix.inv_def, Ring.inverse_eq_inv]
  ext i j
  rw [Matrix.smul_apply, smul_eq_mul]
  show cofactorRT m j i / determinantRT 4 m = _
  rw [cofactorRT_eq_adjugate, determinantRT_four, div_eq_inv_mul]

theorem matMul_eq {n : ℕ} (a b : Matrix (Fin n) (Fin n) ℚ) : matMul a b = a * b := by
  ext i j
  rw [Matrix.mul_apply]
  rfl

theorem identityMatrix_eq_one : identityMatrix = 1 := by
  ext i j
  simp [identityMatrix, Matrix.one_apply]

theorem matrixEqB_of_eq {n : ℕ} {a b : Matrix (Fin n) (Fin n) ℚ} (h : a = b) :
    matrixEqB a b = true := h ▸ matrixEqB_self a

/-- Claim C6: for every invertible 4×4 matrix (nonzero determinant),
`M * M.inverse()` equals the identity under the source's tolerance-based
matrix equality (over the exact-rational embedding the product is the
identity exactly), and `(M*N).inverse()` equals `N.inverse() * M.inverse()`. -/
theorem c6_inverse_properties (M N : Matrix4) :
    (determinantRT 4 M ≠ 0 →
      matrixEqB (matMul M (inverseRT M)) identityMatrix = true) ∧
    (determinantRT 4 M ≠ 0 → determinantRT 4 N ≠ 0 →
      matrixEqB (inverseRT (matMul M N)) (matMul (inverseRT N) (inverseRT M)) = true) := by
  constructor
  · intro hdet
    refine matrixEqB_of_eq ?_
    rw [matMul_eq, inverseRT_eq_inv, identityMatrix_eq_one]
    exact Matrix.mul_nonsing_inv M
      (isUnit_iff_ne_zero.mpr (by rw [← determinantRT_four]; exact hdet))
  · intro _ _
    refine matrixEqB_of_eq ?_
    rw [matMul_eq, inverseRT_eq_inv, matMul_eq, inverseRT_eq_inv, inverseRT_eq_inv,
      Matrix.mul_inv_rev]

/-- Witness for C6 at `M = 2·I`, `N = 3·I` (determinants `16` and `81`). -/
theorem c6_inverse_properties_witness :
    matrixEqB (matMul ((2 : ℚ) • (1 : Matrix4))
      (inverseRT ((2 : ℚ) • (1 : Matrix4)))) identityMatrix = true ∧
    matrixEqB (inverseRT (matMul ((2 : ℚ) • (1 : Matrix4)) ((3 : ℚ) • (1 : Matrix4))))
      (matMul (inverseRT ((3 : ℚ) • (1 : Matrix4)))
        (inverseRT ((2 : ℚ) • (1 : Matrix4)))) = true := by
  have h2 : determinantRT 4 ((2 : ℚ) • (1 : Matrix4)) ≠ 0 := by
    rw [determinantRT_four, Matrix.det_smul, Matrix.det_one, mul_one]
    norm_num
  have h3 : determinantRT 4 ((3 : ℚ) • (1 : Matrix4)) ≠ 0 := by
    rw [determinantRT_four, Matrix.det_smul, Matrix.det_one, mul_one]
    norm_num
  exact ⟨(c6_inverse_properties _ ((3 : ℚ) • (1 : Matrix4))).1 h2,
    (c6_inverse_properties _ _).2 h2 h3⟩

/-! ### C8: single-threaded versus parallel rendering -/

theorem pixelIndex_lt {W H x y : ℕ} (hx : x < W) (hy : y < H) :
    W * y + x < W * H := by
  calc W * y + x < W * y + W := by omega
    _ = W * (y + 1) := by ring
    _ ≤ W * H := Nat.mul_le_mul_left W (Nat.succ_le_of_lt hy)

theorem pixelIndex_inj {W x x2 y y2 : ℕ} (hx : x < W) (hx2 : x2 < W)
    (h : W * y + x = W * y2 + x2) : x = x2 ∧ y = y2 := by
  have hW : 0 < W := lt_of_le_of_lt (Nat.zero_le x) hx
  have e1 : (W * y + x) % W = x := by rw [Nat.mul_add_mod, Nat.mod_eq_of_lt hx]
  have e2 : (W * y2 + x2) % W = x2 := by rw [Nat.mul_add_mod, Nat.mod_eq_of_lt hx2]
  have e3 : (W * y + x) / W = y := by
    rw [Nat.mul_add_div hW, Nat.div_eq_of_lt hx, Nat.add_zero]
  have e4 : (W * y2 + x2) / W = y2 := by
    rw [Nat.mul_add_div hW, Nat.div_eq_of_lt hx2, Nat.add_zero]
  exact ⟨by rw [← e1, ← e2, h], by rw [← e3, ← e4, h]⟩

theorem renderFold_pixel (W H : ℕ) (g : ℕ → ℕ → Option Color) :
    ∀ (l : List (ℕ × ℕ)) (cv cv2 : Canvas),
      cv.width = W → cv.pixels.length = W * H →
      (∀ p ∈ l, p.1 < W ∧ p.2 < H) →
      l.foldlM (fun acc p => (g p.1 p.2).map fun col => acc.writePixel p.1 p.2 col) cv
        = some cv2 →
      cv2.width = W ∧ cv2.pixels.length = W * H ∧
      ∀ x y, x < W → y < H →
        (((x, y) ∈ l → ∃ col, g x y = some col ∧ cv2.pixelAt x y = some col) ∧
         ((x, y) ∉ l → cv2.pixelAt x y = cv.pixelAt x y)) := by
  intro l
  induction l with
  | nil =>
    intro cv cv2 hW hlen _ hfold
    simp only [List.foldlM_nil] at hfold
    obtain rfl : cv = cv2 := by simpa using hfold
    exact ⟨hW, hlen, fun x y _ _ =>
      ⟨fun h => absurd h (List.not_mem_nil _), fun _ => rfl⟩⟩
  | cons p t ih =>
    intro cv cv2 hW hlen hbounds hfold
    rw [List.foldlM_cons] at hfold
    cases h0 : g p.1 p.2 with
    | none => rw [h0] at hfold; simp at hfold
    | some col0 =>
      rw [h0] at hfold
      simp only [Option.map_some', Option.some_bind] at hfold
      have hb := hbounds p (List.mem_cons_self p t)
      have hW2 : (cv.writePixel p.1 p.2 col0).width = W := hW
      have hlen2 : (cv.writePixel p.1 p.2 col0).pixels.length = W * H := by
        simpa [Canvas.writePixel] using hlen
      obtain ⟨w2, l2, hpix⟩ :=
        ih _ _ hW2 hlen2 (fun q hq => hbounds q (List.mem_cons_of_mem _ hq)) hfold
      refine ⟨w2, l2, ?_⟩
      intro x y hx hy
      obtain ⟨hin, hout⟩ := hpix x y hx hy
      constructor
      · intro hmem
        rcases List.mem_cons.mp hmem with heq | hmem2
        · by_cases hmem3 : (x, y) ∈ t
          · exact hin hmem3
          · obtain rfl : p = (x, y) := heq.symm
            refine ⟨col0, h0, ?_⟩
            rw [hout hmem3]
            simp only [Canvas.pixelAt, Canvas.writePixel, hW]
            exact List.getElem?_set_eq_of_lt col0
              (by rw [hlen]; exact pixelIndex_lt hx hy)
        · exact hin hmem2
      · intro hmem
        have hmem2 : (x, y) ∉ t := fun hc => hmem (List.mem_cons_of_mem _ hc)
        rw [hout hmem2]
        have hne : ¬p = (x, y) := fun hc => hmem (hc ▸ List.mem_cons_self p t)
        simp only [Canvas.pixelAt, Canvas.writePixel, hW]
        apply List.getElem?_set_ne
        intro hidx
        exact hne (by
          obtain ⟨h1, h2⟩ := pixelIndex_inj hb.1 hx hidx
          cases p
          simp only at h1 h2
          rw [h1, h2])

theorem myFoldlM_append {α : Type} (f : Canvas → α → Option Canvas) :
    ∀ (l1 l2 : List α) (b : Canvas),
      (l1 ++ l2).foldlM f b = (l1.foldlM f b).bind fun b2 => l2.foldlM f b2 := by
  intro l1
  induction l1 with
  | nil => intro l2 b; simp
  | cons a l1 ih =>
    intro l2 b
    rw [List.cons_append, List.foldlM_cons, List.foldlM_cons]
    cases h : f b a with
    | none => simp [h]
    | some b1 => simp [h, ih]

theorem myFoldlM_map {α β : Type} (g : α → β) (f : Canvas → β → Option Canvas) :
    ∀ (l : List α) (b : Canvas),
      (l.map g).foldlM f b = l.foldlM (fun acc a => f acc (g a)) b := by
  intro l
  induction l with
  | nil => intro b; rfl
  | cons a l ih =>
    intro b
    rw [List.map_cons, List.foldlM_cons, List.foldlM_cons]
    cases h : f b (g a) with
    | none => simp
    | some b1 => simp [ih]

theorem foldlM_pairs (step : Canvas → ℕ × ℕ → Option Canvas) (H : ℕ) :
    ∀ (xs : List ℕ) (cv : Canvas),
      xs.foldlM (fun acc x => (List.range H).foldlM (fun acc2 y => step acc2 (x, y)) acc) cv =
        (xs.flatMap fun x => (List.range H).map fun y => (x, y)).foldlM step cv := by
  intro xs
  induction xs with
  | nil => intro cv; rfl
  | cons x xs ih =>
    intro cv
    rw [List.foldlM_cons, List.flatMap_cons, myFoldlM_append, myFoldlM_map]
    cases h : (List.range H).foldlM (fun acc2 y => step acc2 (x, y)) cv with
    | none => simp [h]
    | some cv1 => simp [h, ih]

theorem render_eq_pairFold (c : Camera) (w : World) :
    c.render w =
      (pairList c.hsize c.vsize).foldlM
        (fun acc p =>
          (World.colorAt w (c.rayForPixel p.1 p.2) MAX_REFLECTIONS).map
            fun col => acc.writePixel p.1 p.2 col)
        (canvasMk c.hsize c.vsize) :=
  foldlM_pairs
    (fun acc p =>
      (World.colorAt w (c.rayForPixel p.1 p.2) MAX_REFLECTIONS).map
        fun col => acc.writePixel p.1 p.2 col)
    c.vsize (List.range c.hsize) (canvasMk c.hsize c.vsize)

theorem mem_pairList {W H x y : ℕ} : (x, y) ∈ pairList W H ↔ x < W ∧ y < H := by
  simp [pairList]

theorem mapM_mem {α β : Type} (f : α → Option β) :
    ∀ (l : List α) (es : List β), l.mapM f = some es →
      ∀ a ∈ l, ∀ b, f a = some b → b ∈ es := by
  intro l
  induction l with
  | nil => intro es _ a ha; simp at ha
  | cons c t ih =>
    intro es h a ha b hb
    rw [List.mapM_cons] at h
    cases hc : f c with
    | none => rw [hc] at h; simp at h
    | some bc =>
      rw [hc] at h
      cases ht : t.mapM f with
      | none => rw [ht] at h; simp at h
      | some bs =>
        rw [ht] at h
        simp at h
        subst h
        rcases List.mem_cons.mp ha with heq | ha2
        · subst heq
          rw [hc] at hb
          obtain rfl : bc = b := by simpa using hb
          exact List.mem_cons_self _ _
        · exact List.mem_cons_of_mem _ (ih bs ht a ha2 b hb)

/-- Claim C8: for every in-range pixel, the single-threaded `Camera::render`
writes exactly the color `color_at(ray_for_pixel(x, y), MAX_REFLECTIONS)`, and
`Camera::render_async` emits the identical triple `(x, y, color)` for pixel
index `i = y * hsize + x` whenever its range covers `i` (and all channel
sends succeed) — parallel and single-threaded renders are pixel-identical. -/
theorem c8_render_parallel_identical (c : Camera) (w : World) (x y : ℕ)
    (hx : x < c.hsize) (hy : y < c.vsize) (cv : Canvas)
    (hr : c.render w = some cv) :
    ∃ col, World.colorAt w (c.rayForPixel x y) MAX_REFLECTIONS = some col ∧
      cv.pixelAt x y = some col ∧
      ∀ (ix : List ℕ) (es : List (ℕ × ℕ × Color)),
        c.renderAsync w ix = some es → (y * c.hsize + x) ∈ ix →
        (x, y, col) ∈ es := by
  rw [render_eq_pairFold] at hr
  have hbounds : ∀ p ∈ pairList c.hsize c.vsize, p.1 < c.hsize ∧ p.2 < c.vsize := by
    intro p hp
    cases p with
    | mk a b2 => exact mem_pairList.mp hp
  obtain ⟨_, _, hpix⟩ := renderFold_pixel c.hsize c.vsize
    (fun a b => World.colorAt w (c.rayForPixel a b) MAX_REFLECTIONS)
    (pairList c.hsize c.vsize) (canvasMk c.hsize c.vsize) cv rfl
    (by simp [canvasMk]) hbounds hr
  obtain ⟨hin, _⟩ := hpix x y hx hy
  obtain ⟨col, hcol, hat⟩ := hin (mem_pairList.mpr ⟨hx, hy⟩)
  refine ⟨col, hcol, hat, ?_⟩
  intro ix es hasync hidx
  have hW : 0 < c.hsize := lt_of_le_of_lt (Nat.zero_le x) hx
  have hmod : (y * c.hsize + x) % c.hsize = x := by
    rw [Nat.mul_comm y c.hsize, Nat.mul_add_mod, Nat.mod_eq_of_lt hx]
  have hdiv : (y * c.hsize + x) / c.hsize = y := by
    rw [Nat.mul_comm y c.hsize, Nat.mul_add_div hW, Nat.div_eq_of_lt hx, Nat.add_zero]
  rw [Camera.renderAsync] at hasync
  refine mapM_mem _ ix es hasync _ hidx (x, y, col) ?_
  show (World.colorAt w (c.rayForPixel ((y * c.hsize + x) % c.hsize)
      ((y * c.hsize + x) / c.hsize)) MAX_REFLECTIONS).map
      (fun col2 => ((y * c.hsize + x) % c.hsize, (y * c.hsize + x) / c.hsize, col2)) =
      some (x, y, col)
  rw [hmod, hdiv, hcol]
  rfl

/-- Witness for C8: the 1×1 camera over the empty world renders the black
pixel, matching the async emission for index 0. -/
theorem c8_render_parallel_identical_witness :
    ∃ col, World.colorAt ⟨[], []⟩ (wCam1.rayForPixel 0 0) MAX_REFLECTIONS = some col ∧
      (⟨1, 1, [blackC]⟩ : Canvas).pixelAt 0 0 = some col ∧
      ∀ (ix : List ℕ) (es : List (ℕ × ℕ × Color)),
        wCam1.renderAsync ⟨[], []⟩ ix = some es → (0 * wCam1.hsize + 0) ∈ ix →
        (0, 0, col) ∈ es := by
  have hcol : ∀ r, World.colorAt ⟨[], []⟩ r MAX_REFLECTIONS = some blackC := by
    intro r
    rw [World.colorAt]
    simp [World.intersectsW, worldIntersectsList, sortT, hitRT, minByT]
  apply c8_render_parallel_identical wCam1 ⟨[], []⟩ 0 0 (by norm_num [wCam1])
    (by norm_num [wCam1])
  rw [Camera.render]
  simp [wCam1, hcol, canvasMk, Canvas.writePixel, List.range_succ]

end RT
